import Mathlib

/-!
Verification of the agent-memory evaluation loop of the Democrative-AI
repository (src/llm_core.py, src/llm_core2.py), as a shallow embedding.

The inference collaborator (Ollama via LLMChain) is modelled as an oracle
supplying the raw response string, or `none` when the call fails.  Python
exceptions (a raised `IndexError`, a failed inference call) are modelled as
`none` / short-circuiting, since nothing after the raise executes.
-/

namespace LLMCore

/-- Python `str.upper()` restricted to the ASCII range, which is all the
code ever compares (choice labels and first response tokens). -/
def pyUpper (s : String) : String := String.mk (s.data.map Char.toUpper)

/-- Accumulating worker for `pySplit`: `acc` holds the characters of the
current token, most recent first. -/
def splitWsAux : List Char → List Char → List String
  | [], [] => []
  | [], a :: as => [String.mk (a :: as).reverse]
  | c :: cs, acc =>
    if c.isWhitespace then
      match acc with
      | [] => splitWsAux cs []
      | a :: as => String.mk (a :: as).reverse :: splitWsAux cs []
    else splitWsAux cs (c :: acc)

/-- Python `str.split()` with no argument: split on runs of whitespace,
discarding empty pieces. -/
def pySplit (s : String) : List String := splitWsAux s.data []

/-- The answer-extraction step of `Agent.answer` in both variants
(`mcq_answer = response.split()[0]`, llm_core.py line 46, llm_core2.py
line 49).  `none` models the `IndexError` raised when the response has no
whitespace-delimited token at all. -/
def extractAnswer (response : String) : Option String :=
  (pySplit response).head?

/-- The `result` string of `Agent.update_memory`
(`"correct" if answer.upper() == correct_answer.upper() else "incorrect"`,
llm_core.py line 50, llm_core2.py line 53). -/
def resultStr (answer correct_answer : String) : String :=
  if pyUpper answer = pyUpper correct_answer then "correct" else "incorrect"

/-- The f-string memory entry built by `Agent.update_memory`
(llm_core.py line 51). -/
def memoryEntry (question answer correct_answer : String) : String :=
  "Question: " ++ question ++ "\nYour answer: " ++ answer ++
    "\nCorrect answer: " ++ correct_answer ++ "\nResult: " ++
    resultStr answer correct_answer

/-- The mutable fields of `Agent` in the in-process variant
(llm_core.py lines 39-41); the `chain` handle lives in the inference
oracle. -/
structure AgentState where
  memory : List String
  correct_answers : Nat
  total_questions : Nat
deriving DecidableEq, Repr

/-- A freshly constructed agent (llm_core.py `Agent.__init__`). -/
def agentInit : AgentState := ⟨[], 0, 0⟩

/-- `Agent.update_memory` of the in-process variant (llm_core.py lines
49-54): append the entry, then `pop(0)` once the length passes 500. -/
def update_memory (st : AgentState) (question answer correct_answer : String) :
    AgentState :=
  { st with memory :=
      if (st.memory ++ [memoryEntry question answer correct_answer]).length > 500
      then (st.memory ++ [memoryEntry question answer correct_answer]).drop 1
      else st.memory ++ [memoryEntry question answer correct_answer] }

/-- `Agent.update_score` (llm_core.py lines 56-59, identical in
llm_core2.py lines 97-100). -/
def update_score (st : AgentState) (correct : Bool) : AgentState :=
  { st with
    total_questions := st.total_questions + 1
    correct_answers :=
      if correct then st.correct_answers + 1 else st.correct_answers }

/-- The per-agent accuracy reported by `get_all_responses` and the final
report (`correct_answers / total_questions if total_questions > 0 else 0`,
llm_core.py lines 75 and 122). -/
def accuracy (st : AgentState) : ℚ :=
  if st.total_questions > 0 then
    (st.correct_answers : ℚ) / (st.total_questions : ℚ)
  else 0

/-- What the loop body of `get_all_responses` (llm_core.py lines 66-76)
observes for one agent: the mutated agent plus the extracted answer and
correctness flag used in the printed report. -/
structure StepResult where
  state : AgentState
  mcq_answer : String
  is_correct : Bool
deriving DecidableEq, Repr

/-- One iteration of the loop of `get_all_responses` (llm_core.py lines
66-76) for one agent.  `resp?` is the outcome of the inference call inside
`agent.answer`: `none` when the call fails.  A failed call, or the
`IndexError` of `response.split()[0]`, propagates: the function returns
`none` and the agent's state is untouched. -/
def processAgent (st : AgentState) (mcq correct_answer : String) :
    Option String → Option StepResult
  | none => none
  | some response =>
    match extractAnswer response with
    | none => none
    | some mcq_answer =>
      some ⟨update_score (update_memory st mcq mcq_answer correct_answer)
              (decide (pyUpper mcq_answer = pyUpper correct_answer)),
            mcq_answer,
            decide (pyUpper mcq_answer = pyUpper correct_answer)⟩

/-- `get_all_responses` (llm_core.py lines 64-78) over the pool, with each
agent's inference outcome supplied positionally by `resps`.  The `Bool`
records whether the loop ran to completion; on a raised exception the
failing agent and every later agent keep their states. -/
def get_all_responses (agents : List AgentState) (resps : List (Option String))
    (mcq correct_answer : String) : List AgentState × Bool :=
  match agents, resps with
  | [], _ => ([], true)
  | a :: rest, [] => (a :: rest, false)
  | a :: rest, r :: rs =>
    match processAgent a mcq correct_answer r with
    | none => (a :: rest, false)
    | some res =>
      let next := get_all_responses rest rs mcq correct_answer
      (res.state :: next.1, next.2)

/-! ## The durable variant (src/llm_core2.py)

The MongoDB collection `db.questions` is modelled as a list of documents in
insertion order; `_id` is modelled by a monotonically increasing `qid`, so
`sort=[("_id", -1)]` is a sort by `qid` descending.  The per-question
`agents` object is an association list from agent identity to that agent's
sub-document. -/

/-- The per-agent sub-document stored under `agents.<agent_id>`
(llm_core2.py lines 62-66 and 72-78). -/
structure AgentEntry where
  answer : String
  correct_answer : String
  result : String
deriving DecidableEq, Repr

/-- MongoDB object field access `agents[agent_id]`: the first (and, for a
well-formed object, only) binding of the identity. -/
def lookupAgent (l : List (String × AgentEntry)) (aid : String) :
    Option AgentEntry :=
  (l.find? (fun p => p.1 = aid)).map (fun p => p.2)

/-- MongoDB `$set {"agents.<aid>": e}` on one document's `agents` object:
replace the identity's binding if present, otherwise add it. -/
def setAgentField : List (String × AgentEntry) → String → AgentEntry →
    List (String × AgentEntry)
  | [], aid, e => [(aid, e)]
  | p :: ps, aid, e =>
    if p.1 = aid then (aid, e) :: ps else p :: setAgentField ps aid e

/-- One document of the `questions` collection. -/
structure QuestionDoc where
  qid : Nat
  question : String
  agents : List (String × AgentEntry)
deriving DecidableEq, Repr

/-- The `questions` collection: documents in insertion order plus the next
`_id` to hand out. -/
structure DB where
  docs : List QuestionDoc
  nextId : Nat
deriving DecidableEq, Repr

/-- An empty collection. -/
def dbInit : DB := ⟨[], 0⟩

/-- `db.questions.find_one({"question": question})` (llm_core2.py line
56): the first document whose `question` field matches. -/
def findOneQuestion (db : DB) (q : String) : Option QuestionDoc :=
  db.docs.find? (fun d => d.question = q)

/-- The effect of the `$set` update on one document: rewrite the
`agents.<aid>` sub-field when the `_id` matches, else leave the document
alone. -/
def setDocAgent (id : Nat) (aid : String) (e : AgentEntry)
    (d : QuestionDoc) : QuestionDoc :=
  if d.qid = id then { d with agents := setAgentField d.agents aid e }
  else d

/-- `db.questions.update_one` filtered on `_id` with a `$set` of the
caller's agent sub-field (llm_core2.py lines 60-67): `_id` is unique, so
this rewrites exactly the matching document. -/
def updateAgentField (db : DB) (id : Nat) (aid : String) (e : AgentEntry) :
    DB :=
  { db with docs := db.docs.map (setDocAgent id aid e) }

/-- `db.questions.insert_one({...})` (llm_core2.py lines 70-79): append a
new document with a fresh `_id`. -/
def insertQuestion (db : DB) (q aid : String) (e : AgentEntry) : DB :=
  ⟨db.docs ++ [⟨db.nextId, q, [(aid, e)]⟩], db.nextId + 1⟩

/-- `Agent.update_memory` of the durable variant (llm_core2.py lines
52-79): find by question text, update the caller's sub-field if found,
else insert a new document. -/
def update_memory2 (db : DB) (aid question answer correct_answer : String) :
    DB :=
  match findOneQuestion db question with
  | some doc =>
    updateAgentField db doc.qid aid
      ⟨answer, correct_answer, resultStr answer correct_answer⟩
  | none =>
    insertQuestion db question aid
      ⟨answer, correct_answer, resultStr answer correct_answer⟩

/-- Insert a document into a list kept sorted by `qid` descending. -/
def insertDesc (d : QuestionDoc) : List QuestionDoc → List QuestionDoc
  | [] => [d]
  | x :: xs => if x.qid ≤ d.qid then d :: x :: xs else x :: insertDesc d xs

/-- Sort a list of documents by `qid` descending (the effect of
`sort=[("_id", -1)]`). -/
def sortDesc : List QuestionDoc → List QuestionDoc
  | [] => []
  | x :: xs => insertDesc x (sortDesc xs)

/-- The documents matching the filter
`{f"agents.{self.agent_id}": {"$exists": True}}` (llm_core2.py line 84),
in insertion order. -/
def agentDocs (db : DB) (aid : String) : List QuestionDoc :=
  db.docs.filter (fun d => (lookupAgent d.agents aid).isSome)

/-- The memory entry `get_memory` renders from one document
(llm_core2.py line 92). -/
def memoryEntryOfDoc (aid : String) (d : QuestionDoc) : Option String :=
  (lookupAgent d.agents aid).map (fun a =>
    "Question: " ++ d.question ++ "\nYour answer: " ++ a.answer ++
      "\nCorrect answer: " ++ a.correct_answer ++ "\nResult: " ++ a.result)

/-- `Agent.get_memory` (llm_core2.py lines 81-95): filter on the caller's
sub-field, sort by `_id` descending, limit 5, render each document. -/
def get_memory (db : DB) (aid : String) : List String :=
  ((sortDesc (agentDocs db aid)).take 5).filterMap (memoryEntryOfDoc aid)

/-- Well-formedness of the collection, true of every state reachable from
`dbInit`: question texts are pairwise distinct (maintained by the
find-then-insert discipline of `update_memory2`), `_id`s are handed out in
strictly increasing order, and every stored `_id` is below `nextId`. -/
def WF (db : DB) : Prop :=
  (db.docs.map (fun d => d.question)).Nodup ∧
  (db.docs.map (fun d => d.qid)).Pairwise (· < ·) ∧
  ∀ d ∈ db.docs, d.qid < db.nextId

/-- Fold a sequence of `(answer, correct_answer)` recordings for one agent
and one question through `update_memory2`. -/
def recordMany (db : DB) (aid question : String) :
    List (String × String) → DB
  | [] => db
  | r :: rs => recordMany (update_memory2 db aid question r.1 r.2) aid question rs

/-- Iterated `Agent.update_memory` of the in-process variant over a list
of `(question, answer, correct_answer)` triples. -/
def updateMemoryMany (st : AgentState) :
    List (String × String × String) → AgentState
  | [] => st
  | r :: rs => updateMemoryMany (update_memory st r.1 r.2.1 r.2.2) rs

/-- Iterated `Agent.update_score` over a list of correctness flags. -/
def runScores (st : AgentState) : List Bool → AgentState
  | [] => st
  | b :: bs => runScores (update_score st b) bs

/-- The sub-document `update_memory2` builds from one
`(answer, correct_answer)` recording. -/
def mkAgentEntry (r : String × String) : AgentEntry :=
  ⟨r.1, r.2, resultStr r.1 r.2⟩

/-- A concrete two-agent collection, used to exercise the durable-variant
theorems on explicit inputs. -/
def dbQ : DB :=
  ⟨[⟨0, "Q", [("agent_0", ⟨"a", "b", "incorrect"⟩),
      ("agent_1", ⟨"b", "b", "correct"⟩)]⟩], 1⟩

/-! ## Context scrambling (identical in both variants)

A Python dict is modelled as an association list in insertion order with
distinct keys; `data[key]` is first-match lookup. -/

/-- `list(data.keys())`: the keys of the mapping in order. -/
def dictKeys (d : List (String × String)) : List String :=
  d.map (fun p => p.1)

/-- `data[key]` as a total lookup: `none` models a raised `KeyError`. -/
def dictGet (d : List (String × String)) (k : String) : Option String :=
  (d.find? (fun p => p.1 = k)).map (fun p => p.2)

/-- `scramble_sequence` (llm_core.py lines 11-14, llm_core2.py lines
12-15): `random.shuffle(keys)` is modelled by passing the shuffled key
list explicitly; the dict comprehension `{key: data[key] for key in keys}`
builds a fresh mapping and leaves `data` untouched. -/
def scramble_sequence (d : List (String × String)) (shuffled : List String) :
    List (String × String) :=
  shuffled.filterMap (fun k => (dictGet d k).map (fun v => (k, v)))

/-! ## Helper lemmas -/

lemma dictGet_isSome_of_mem (d : List (String × String)) (k : String)
    (h : k ∈ dictKeys d) : (dictGet d k).isSome := by
  induction d with
  | nil => simp [dictKeys] at h
  | cons p ps ih =>
    by_cases hp : p.1 = k
    · simp [dictGet, List.find?, hp]
    · have : k ∈ dictKeys ps := by
        simp only [dictKeys, List.map_cons, List.mem_cons] at h
        rcases h with h | h
        · exact absurd h.symm hp
        · simpa [dictKeys] using h
      simpa [dictGet, List.find?, hp] using ih this

lemma dictGet_eq_none_of_not_mem (d : List (String × String)) (k : String)
    (h : k ∉ dictKeys d) : dictGet d k = none := by
  induction d with
  | nil => rfl
  | cons p ps ih =>
    simp only [dictKeys, List.map_cons, List.mem_cons, not_or] at h
    have hp : ¬(p.1 = k) := fun hc => h.1 hc.symm
    simp only [dictGet, List.find?, hp]
    exact ih (by simpa [dictKeys] using h.2)

lemma scramble_cons (d : List (String × String)) (x : String)
    (ks : List String) (v : String) (hv : dictGet d x = some v) :
    scramble_sequence d (x :: ks) = (x, v) :: scramble_sequence d ks := by
  simp [scramble_sequence, List.filterMap_cons, hv]

lemma dictGet_cons (p : String × String) (ps : List (String × String))
    (k : String) :
    dictGet (p :: ps) k = if p.1 = k then some p.2 else dictGet ps k := by
  by_cases h : p.1 = k
  · rw [dictGet, List.find?_cons_of_pos _ (by simp [h]), if_pos h]
    rfl
  · rw [dictGet, List.find?_cons_of_neg _ (by simp [h]), if_neg h]
    rfl

lemma scramble_keys (d : List (String × String)) (ks : List String)
    (h : ∀ k ∈ ks, k ∈ dictKeys d) :
    dictKeys (scramble_sequence d ks) = ks := by
  induction ks with
  | nil => rfl
  | cons k ks ih =>
    obtain ⟨v, hv⟩ := Option.isSome_iff_exists.mp
      (dictGet_isSome_of_mem d k (h k (List.mem_cons_self k ks)))
    rw [scramble_cons d k ks v hv]
    show k :: dictKeys (scramble_sequence d ks) = k :: ks
    rw [ih (fun x hx => h x (List.mem_cons_of_mem k hx))]

lemma scramble_get (d : List (String × String)) (ks : List String)
    (hks : ∀ x ∈ ks, x ∈ dictKeys d) (k : String) :
    dictGet (scramble_sequence d ks) k =
      if k ∈ ks then dictGet d k else none := by
  induction ks with
  | nil => simp [scramble_sequence, dictGet]
  | cons x ks ih =>
    obtain ⟨v, hv⟩ := Option.isSome_iff_exists.mp
      (dictGet_isSome_of_mem d x (hks x (List.mem_cons_self x ks)))
    have ihx := ih (fun y hy => hks y (List.mem_cons_of_mem x hy))
    rw [scramble_cons d x ks v hv, dictGet_cons]
    by_cases hxk : x = k
    · subst hxk
      rw [if_pos rfl, if_pos (List.mem_cons_self x ks)]
      exact hv.symm
    · rw [if_neg hxk, ihx]
      have hiff : (k ∈ x :: ks) ↔ (k ∈ ks) :=
        ⟨fun hh => (List.mem_cons.mp hh).resolve_left
          (fun he => absurd he.symm hxk),
         fun hh => List.mem_cons_of_mem x hh⟩
      exact (if_congr hiff rfl rfl).symm

lemma update_memory_length_le (st : AgentState) (q a c : String)
    (h : st.memory.length ≤ 500) :
    (update_memory st q a c).memory.length ≤ 500 := by
  simp only [update_memory]
  split <;>
    (simp only [List.length_drop, List.length_append, List.length_cons,
      List.length_nil] at *) <;> omega

lemma updateMemoryMany_length_le (rs : List (String × String × String))
    (st : AgentState) (h : st.memory.length ≤ 500) :
    (updateMemoryMany st rs).memory.length ≤ 500 := by
  induction rs generalizing st with
  | nil => exact h
  | cons r rs ih => exact ih _ (update_memory_length_le _ _ _ _ h)

lemma update_memory_getLast (st : AgentState) (q a c : String) :
    (update_memory st q a c).memory.getLast? =
      some (memoryEntry q a c) := by
  simp only [update_memory]
  split
  · next hgt =>
    have hlen : 1 ≤ st.memory.length := by
      simp only [List.length_append, List.length_cons, List.length_nil] at hgt
      omega
    rw [List.drop_append_of_le_length hlen]
    exact List.getLast?_concat _
  · exact List.getLast?_concat _

lemma update_score_le (st : AgentState) (b : Bool)
    (h : st.correct_answers ≤ st.total_questions) :
    (update_score st b).correct_answers ≤ (update_score st b).total_questions := by
  simp only [update_score]
  cases b <;> simp <;> omega

lemma runScores_le (bs : List Bool) (st : AgentState)
    (h : st.correct_answers ≤ st.total_questions) :
    (runScores st bs).correct_answers ≤ (runScores st bs).total_questions := by
  induction bs generalizing st with
  | nil => exact h
  | cons b bs ih => exact ih _ (update_score_le _ _ h)

lemma accuracy_mem_unit (st : AgentState)
    (h : st.correct_answers ≤ st.total_questions) :
    0 ≤ accuracy st ∧ accuracy st ≤ 1 := by
  simp only [accuracy]
  split
  · next hpos =>
    constructor
    · positivity
    · rw [div_le_one (by exact_mod_cast hpos)]
      exact_mod_cast h
  · simp

/-! ## Claim theorems -/

/-- Claim C1 (code_bug evidence): the answer extraction performed by
`Agent.answer` is `response.split()[0]`; on an empty or whitespace-only
response it raises `IndexError` (modelled as `none`) instead of returning
an INVALID sentinel, and on prose it returns the first token verbatim,
which need not be a valid choice label. -/
theorem extract_raises_and_unconstrained :
    extractAnswer "" = none ∧ extractAnswer " \t " = none ∧
    extractAnswer "I think the answer could be either a or b" = some "I" :=
  ⟨rfl, rfl, rfl⟩

/-- Claim C2 (code_bug evidence): on the spec's end-to-end scenario 1 —
correct label "b", inference response "B) four" — the code extracts the
token "B)" (not "b"), judges it incorrect, and increments only
`total_questions`, leaving `correct_answers` at 0. -/
theorem scenario1_on_code :
    (processAgent agentInit "2+2=? a) 3 b) 4 c) 5" "b" (some "B) four")).map
        (fun r => (r.mcq_answer, r.is_correct, r.state.correct_answers,
          r.state.total_questions)) =
      some ("B)", false, 0, 1) := by rfl

/-- Claim C5: starting from a fresh agent, the in-process memory list
never exceeds 500 entries; once the bound is reached, each new record
drops the oldest entry (the list head) and appends the new one, and below
the bound it simply appends. -/
theorem inprocess_memory_bound :
    (∀ rs : List (String × String × String),
      (updateMemoryMany agentInit rs).memory.length ≤ 500) ∧
    (∀ st : AgentState, ∀ q a c : String, st.memory.length = 500 →
      (update_memory st q a c).memory =
        st.memory.drop 1 ++ [memoryEntry q a c]) ∧
    (∀ st : AgentState, ∀ q a c : String, st.memory.length < 500 →
      (update_memory st q a c).memory =
        st.memory ++ [memoryEntry q a c]) := by
  refine ⟨fun rs => updateMemoryMany_length_le rs agentInit (by simp [agentInit]),
    fun st q a c h => ?_, fun st q a c h => ?_⟩
  · simp only [update_memory]
    rw [if_pos (by simp [h])]
    exact List.drop_append_of_le_length (by omega)
  · simp only [update_memory]
    rw [if_neg (by simp; omega)]

/-- Claim C5 witness: a single record stays within the bound, and a
500-entry memory evicts its head on the next record. -/
theorem inprocess_memory_bound_witness :
    (updateMemoryMany agentInit [("q", "a", "b")]).memory.length ≤ 500 ∧
    (update_memory ⟨List.replicate 500 "m", 0, 0⟩ "q" "a" "b").memory =
      (List.replicate 500 "m").drop 1 ++ [memoryEntry "q" "a" "b"] ∧
    (update_memory agentInit "q" "a" "b").memory =
      [] ++ [memoryEntry "q" "a" "b"] :=
  ⟨inprocess_memory_bound.1 [("q", "a", "b")],
   inprocess_memory_bound.2.1 ⟨List.replicate 500 "m", 0, 0⟩ "q" "a" "b"
     (show (List.replicate 500 "m").length = 500 from List.length_replicate 500 "m"),
   inprocess_memory_bound.2.2 agentInit "q" "a" "b" (by simp [agentInit])⟩

/-- Claim C8: after any sequence of `update_score` calls on an agent whose
counters satisfy `correct_answers ≤ total_questions` (as a fresh agent
does), the invariant `0 ≤ correct_answers ≤ total_questions` still holds,
and the reported accuracy — `correct / total` when `total > 0`, else 0,
exactly as computed by `get_all_responses` — lies in `[0, 1]`. -/
theorem score_accuracy_invariant (st : AgentState)
    (h : st.correct_answers ≤ st.total_questions) (bs : List Bool) :
    (runScores st bs).correct_answers ≤ (runScores st bs).total_questions ∧
    0 ≤ accuracy (runScores st bs) ∧ accuracy (runScores st bs) ≤ 1 := by
  have hle := runScores_le bs st h
  exact ⟨hle, accuracy_mem_unit _ hle⟩

/-- Claim C8 witness: the invariant and accuracy bounds at a concrete run
of three questions, one answered correctly. -/
theorem score_accuracy_invariant_witness :
    (runScores agentInit [true, false, false]).correct_answers ≤
      (runScores agentInit [true, false, false]).total_questions ∧
    0 ≤ accuracy (runScores agentInit [true, false, false]) ∧
    accuracy (runScores agentInit [true, false, false]) ≤ 1 :=
  score_accuracy_invariant agentInit (by simp [agentInit]) [true, false, false]

lemma resultStr_eq_correct_iff (a c : String) :
    resultStr a c = "correct" ↔ pyUpper a = pyUpper c := by
  unfold resultStr
  split
  · next hp => simp [hp]
  · next hp =>
    constructor
    · intro hcontra; exact absurd hcontra (by decide)
    · intro hcontra; exact absurd hcontra hp

/-- Claim C9: if the inference call for the agent at position `i` fails
(`resps.get? i = some none`), that agent's state after `get_all_responses`
is exactly its state before: no score update and no memory update, because
the exception propagates before `update_memory` and `update_score` run. -/
theorem inference_failure_no_update (agents : List AgentState)
    (resps : List (Option String)) (mcq ca : String) (i : Nat)
    (h : resps.get? i = some none) :
    (get_all_responses agents resps mcq ca).1.get? i = agents.get? i := by
  induction agents generalizing resps i with
  | nil => simp [get_all_responses]
  | cons a rest ih =>
    cases resps with
    | nil => simp at h
    | cons r rs =>
      cases i with
      | zero =>
        have hr : r = none := by simpa using h
        subst hr
        simp [get_all_responses, processAgent]
      | succ j =>
        have hj : rs.get? j = some none := by simpa using h
        cases hp : processAgent a mcq ca r with
        | none => simp [get_all_responses, hp]
        | some res =>
          simp only [get_all_responses, hp, List.get?]
          exact ih rs j hj

/-- Claim C9 witness: a one-agent pool whose single inference call fails
keeps its fresh state. -/
theorem inference_failure_no_update_witness :
    (get_all_responses [agentInit] [none] "q" "b").1.get? 0 =
      [agentInit].get? 0 :=
  inference_failure_no_update [agentInit] [none] "q" "b" 0 rfl

/-- Claim C10: whenever the per-agent loop body completes, the memory
entry just stored ends the agent's memory list, and its `result` field is
"correct" exactly when the `is_correct` flag passed to `update_score` is
`true` — both sides reduce to the same case-insensitive comparison of the
extracted answer with the correct label. -/
theorem memory_outcome_matches_score (st : AgentState) (mcq ca resp : String)
    (res : StepResult) (h : processAgent st mcq ca (some resp) = some res) :
    ∃ ans, extractAnswer resp = some ans ∧
      res.state.memory.getLast? = some (memoryEntry mcq ans ca) ∧
      (resultStr ans ca = "correct" ↔ res.is_correct = true) := by
  simp only [processAgent] at h
  cases he : extractAnswer resp with
  | none => rw [he] at h; simp at h
  | some ans =>
    rw [he] at h
    simp only [Option.some.injEq] at h
    subst h
    refine ⟨ans, rfl, ?_, ?_⟩
    · show (update_memory st mcq ans ca).memory.getLast? = _
      exact update_memory_getLast st mcq ans ca
    · show resultStr ans ca = "correct" ↔
        decide (pyUpper ans = pyUpper ca) = true
      rw [resultStr_eq_correct_iff, decide_eq_true_eq]

/-- Claim C10 witness: a correct concrete answer yields a stored entry
whose result field matches the `true` correctness flag. -/
theorem memory_outcome_matches_score_witness :
    ∃ ans, extractAnswer "b is my answer" = some ans ∧
      (⟨⟨[memoryEntry "q" "b" "b"], 1, 1⟩, "b", true⟩ :
          StepResult).state.memory.getLast? =
        some (memoryEntry "q" ans "b") ∧
      (resultStr ans "b" = "correct" ↔
        (⟨⟨[memoryEntry "q" "b" "b"], 1, 1⟩, "b", true⟩ :
          StepResult).is_correct = true) :=
  memory_outcome_matches_score agentInit "q" "b" "b is my answer" _ (by rfl)

/-- Claim C7: for any shuffle of the key list (any permutation of the
mapping's keys), `scramble_sequence` returns a mapping with exactly the
same keys (as a permutation, hence the same key set) and the same value at
every key; the input mapping is untouched, the result being a freshly
built dict. -/
theorem scramble_sequence_preserves (d : List (String × String))
    (ks : List String) (hperm : ks.Perm (dictKeys d)) :
    (dictKeys (scramble_sequence d ks)).Perm (dictKeys d) ∧
    ∀ k, dictGet (scramble_sequence d ks) k = dictGet d k := by
  have hmem : ∀ x ∈ ks, x ∈ dictKeys d := fun x hx => hperm.mem_iff.mp hx
  constructor
  · rw [scramble_keys d ks hmem]
    exact hperm
  · intro k
    rw [scramble_get d ks hmem k]
    by_cases hk : k ∈ ks
    · rw [if_pos hk]
    · rw [if_neg hk]
      exact (dictGet_eq_none_of_not_mem d k
        (fun hc => hk (hperm.mem_iff.mpr hc))).symm

/-- Claim C7 witness: a two-key mapping scrambled with its keys reversed
keeps its key set and all its values. -/
theorem scramble_sequence_preserves_witness :
    (dictKeys (scramble_sequence [("x", "1"), ("y", "2")] ["y", "x"])).Perm
      (dictKeys [("x", "1"), ("y", "2")]) ∧
    ∀ k, dictGet (scramble_sequence [("x", "1"), ("y", "2")] ["y", "x"]) k =
      dictGet [("x", "1"), ("y", "2")] k :=
  scramble_sequence_preserves [("x", "1"), ("y", "2")] ["y", "x"] (by decide)

lemma lookupAgent_setAgentField_self (l : List (String × AgentEntry))
    (aid : String) (e : AgentEntry) :
    lookupAgent (setAgentField l aid e) aid = some e := by
  induction l with
  | nil =>
    simp only [setAgentField, lookupAgent]
    rw [List.find?_cons_of_pos _ (by simp)]
    rfl
  | cons p ps ih =>
    rw [setAgentField]
    by_cases h : p.1 = aid
    · rw [if_pos h]
      simp only [lookupAgent]
      rw [List.find?_cons_of_pos _ (by simp)]
      rfl
    · rw [if_neg h]
      simp only [lookupAgent] at ih ⊢
      rw [List.find?_cons_of_neg _ (by simp [h])]
      exact ih

lemma lookupAgent_setAgentField_ne (l : List (String × AgentEntry))
    (aid b : String) (e : AgentEntry) (hne : b ≠ aid) :
    lookupAgent (setAgentField l aid e) b = lookupAgent l b := by
  induction l with
  | nil =>
    simp only [setAgentField, lookupAgent]
    rw [List.find?_cons_of_neg _ (by simp [Ne.symm hne])]
  | cons p ps ih =>
    rw [setAgentField]
    by_cases h : p.1 = aid
    · rw [if_pos h]
      simp only [lookupAgent]
      rw [List.find?_cons_of_neg _ (by simp [Ne.symm hne]),
        List.find?_cons_of_neg _ (by simp [h, Ne.symm hne])]
    · rw [if_neg h]
      simp only [lookupAgent] at ih ⊢
      by_cases hb : p.1 = b
      · rw [List.find?_cons_of_pos _ (by simp [hb]),
          List.find?_cons_of_pos _ (by simp [hb])]
      · rw [List.find?_cons_of_neg _ (by simp [hb]),
          List.find?_cons_of_neg _ (by simp [hb])]
        exact ih

lemma setDocAgent_question (id : Nat) (aid : String) (e : AgentEntry)
    (d : QuestionDoc) : (setDocAgent id aid e d).question = d.question := by
  unfold setDocAgent
  split <;> rfl

lemma setDocAgent_qid (id : Nat) (aid : String) (e : AgentEntry)
    (d : QuestionDoc) : (setDocAgent id aid e d).qid = d.qid := by
  unfold setDocAgent
  split <;> rfl

lemma setDocAgent_eq_of_ne (id : Nat) (aid : String) (e : AgentEntry)
    (d : QuestionDoc) (h : d.qid ≠ id) : setDocAgent id aid e d = d := by
  unfold setDocAgent
  rw [if_neg h]

lemma setDocAgent_agents_of_eq (id : Nat) (aid : String) (e : AgentEntry)
    (d : QuestionDoc) (h : d.qid = id) :
    (setDocAgent id aid e d).agents = setAgentField d.agents aid e := by
  unfold setDocAgent
  rw [if_pos h]

lemma setDocAgent_lookup_ne (id : Nat) (aid b : String) (e : AgentEntry)
    (d : QuestionDoc) (hb : b ≠ aid) :
    lookupAgent (setDocAgent id aid e d).agents b =
      lookupAgent d.agents b := by
  unfold setDocAgent
  split
  · exact lookupAgent_setAgentField_ne d.agents aid b e hb
  · rfl

lemma updateAgentField_docs (db : DB) (id : Nat) (aid : String)
    (e : AgentEntry) :
    (updateAgentField db id aid e).docs = db.docs.map (setDocAgent id aid e) :=
  rfl

lemma findOneQuestion_mem (db : DB) (q : String) (doc : QuestionDoc)
    (h : findOneQuestion db q = some doc) :
    doc ∈ db.docs ∧ doc.question = q := by
  have h2 : db.docs.find? (fun d => d.question = q) = some doc := h
  have h3 := List.find?_some h2
  exact ⟨List.mem_of_find?_eq_some h2, by simpa using h3⟩

lemma findOneQuestion_not_mem (db : DB) (q : String)
    (h : findOneQuestion db q = none) :
    ∀ d ∈ db.docs, d.question ≠ q := by
  intro d hd
  have := List.find?_eq_none.mp h d hd
  simpa using this

lemma updateAgentField_map_question (db : DB) (id : Nat) (aid : String)
    (e : AgentEntry) :
    (updateAgentField db id aid e).docs.map (fun d => d.question) =
      db.docs.map (fun d => d.question) := by
  rw [updateAgentField_docs, List.map_map]
  exact List.map_congr_left (fun d _ => setDocAgent_question id aid e d)

lemma updateAgentField_map_qid (db : DB) (id : Nat) (aid : String)
    (e : AgentEntry) :
    (updateAgentField db id aid e).docs.map (fun d => d.qid) =
      db.docs.map (fun d => d.qid) := by
  rw [updateAgentField_docs, List.map_map]
  exact List.map_congr_left (fun d _ => setDocAgent_qid id aid e d)

lemma qid_nodup_of_wf (db : DB) (hwf : WF db) :
    (db.docs.map (fun d => d.qid)).Nodup :=
  hwf.2.1.imp (fun h => Nat.ne_of_lt h)

lemma WF_update_memory2 (db : DB) (hwf : WF db) (aid q a c : String) :
    WF (update_memory2 db aid q a c) := by
  obtain ⟨hq, hid, hlt⟩ := hwf
  unfold update_memory2
  cases hfind : findOneQuestion db q with
  | some doc =>
    refine ⟨?_, ?_, ?_⟩
    · rw [updateAgentField_map_question]
      exact hq
    · rw [updateAgentField_map_qid]
      exact hid
    · intro d hd
      rw [updateAgentField_docs] at hd
      obtain ⟨d0, hd0, rfl⟩ := List.mem_map.mp hd
      rw [setDocAgent_qid]
      exact hlt d0 hd0
  | none =>
    have hno := findOneQuestion_not_mem db q hfind
    refine ⟨?_, ?_, ?_⟩
    · simp only [insertQuestion, List.map_append, List.map_cons,
        List.map_nil]
      rw [List.nodup_append]
      refine ⟨hq, List.nodup_singleton q, ?_⟩
      intro x hx hx1
      obtain ⟨d0, hd0, rfl⟩ := List.mem_map.mp hx
      have : d0.question = q := by simpa using hx1
      exact hno d0 hd0 this
    · simp only [insertQuestion, List.map_append, List.map_cons,
        List.map_nil]
      rw [List.pairwise_append]
      refine ⟨hid, List.pairwise_singleton _ _, ?_⟩
      intro x hx y hy
      obtain ⟨d0, hd0, rfl⟩ := List.mem_map.mp hx
      have : y = db.nextId := by simpa using hy
      rw [this]
      exact hlt d0 hd0
    · intro d hd
      simp only [insertQuestion, List.mem_append, List.mem_cons,
        List.not_mem_nil, or_false] at hd
      rcases hd with hd | rfl
      · exact Nat.lt_trans (hlt d hd) (Nat.lt_succ_self _)
      · exact Nat.lt_succ_self _

lemma length_filter_eq_one_of_nodup {α : Type} (f : α → String)
    (l : List α) (q : String) (hnd : (l.map f).Nodup) (x : α) (hx : x ∈ l)
    (hfx : f x = q) : (l.filter (fun d => f d = q)).length = 1 := by
  induction l with
  | nil => simp at hx
  | cons y ys ih =>
    simp only [List.map_cons, List.nodup_cons] at hnd
    rcases List.mem_cons.mp hx with rfl | hmem
    · rw [List.filter_cons_of_pos (by simp [hfx])]
      have hnil : ys.filter (fun d => f d = q) = [] := by
        rw [List.filter_eq_nil_iff]
        intro a ha hfa
        have hfa2 : f a = q := by simpa using hfa
        apply hnd.1
        rw [hfx, ← hfa2]
        exact List.mem_map_of_mem f ha
      rw [hnil]
      rfl
    · have hy : ¬(f y = q) := by
        intro hc
        exact hnd.1 (by rw [hc, ← hfx]; exact List.mem_map_of_mem f hmem)
      rw [List.filter_cons_of_neg (by simp [hy])]
      exact ih hnd.2 hmem

lemma update_memory2_present (db : DB) (hwf : WF db) (aid q a c : String) :
    ((update_memory2 db aid q a c).docs.filter
        (fun d => d.question = q)).length = 1 ∧
    ∀ d ∈ (update_memory2 db aid q a c).docs, d.question = q →
      lookupAgent d.agents aid = some ⟨a, c, resultStr a c⟩ := by
  obtain ⟨hq, hid, hlt⟩ := hwf
  unfold update_memory2
  cases hfind : findOneQuestion db q with
  | some doc =>
    obtain ⟨hdmem, hdq⟩ := findOneQuestion_mem db q doc hfind
    constructor
    · rw [updateAgentField_docs, List.filter_map, List.length_map]
      have hcong : db.docs.filter
          ((fun d => decide (d.question = q)) ∘
            setDocAgent doc.qid aid ⟨a, c, resultStr a c⟩) =
          db.docs.filter (fun d => decide (d.question = q)) :=
        List.filter_congr (fun d _ => by
          simp [Function.comp, setDocAgent_question])
      rw [hcong]
      exact length_filter_eq_one_of_nodup _ db.docs q hq doc hdmem hdq
    · intro d hd hdq2
      rw [updateAgentField_docs] at hd
      obtain ⟨d0, hd0, rfl⟩ := List.mem_map.mp hd
      rw [setDocAgent_question] at hdq2
      have hd0doc : d0 = doc :=
        List.inj_on_of_nodup_map hq hd0 hdmem (by rw [hdq2, hdq])
      subst hd0doc
      rw [setDocAgent_agents_of_eq _ _ _ _ rfl]
      exact lookupAgent_setAgentField_self _ _ _
  | none =>
    have hno := findOneQuestion_not_mem db q hfind
    constructor
    · simp only [insertQuestion, List.filter_append]
      have hnil : db.docs.filter (fun d => d.question = q) = [] := by
        rw [List.filter_eq_nil_iff]
        intro d hd hdq
        exact hno d hd (by simpa using hdq)
      rw [hnil, List.filter_cons_of_pos (by simp)]
      rfl
    · intro d hd hdq
      simp only [insertQuestion, List.mem_append, List.mem_cons,
        List.not_mem_nil, or_false] at hd
      rcases hd with hd | rfl
      · exact absurd hdq (hno d hd)
      · simp only [lookupAgent]
        rw [List.find?_cons_of_pos _ (by simp)]
        rfl

lemma insertDesc_append (d : QuestionDoc) (l : List QuestionDoc)
    (h : ∀ x ∈ l, d.qid < x.qid) : insertDesc d l = l ++ [d] := by
  induction l with
  | nil => rfl
  | cons y ys ih =>
    rw [insertDesc, if_neg (Nat.not_le.mpr (h y (List.mem_cons_self y ys))),
      ih (fun x hx => h x (List.mem_cons_of_mem y hx))]
    rfl

lemma sortDesc_eq_reverse (l : List QuestionDoc)
    (h : l.Pairwise (fun u v => u.qid < v.qid)) :
    sortDesc l = l.reverse := by
  induction l with
  | nil => rfl
  | cons x xs ih =>
    rw [sortDesc, ih (List.pairwise_cons.mp h).2,
      insertDesc_append x xs.reverse
        (fun y hy => (List.pairwise_cons.mp h).1 y (List.mem_reverse.mp hy)),
      List.reverse_cons]

/-- Claim C3: in the durable variant, starting from a well-formed
collection, recording any nonempty sequence of answers for one question
and one agent leaves a well-formed collection holding exactly one document
for that question text, and in every such document the agent's sub-field
equals the entry of the most recently recorded answer — upsert, never
duplication. -/
theorem durable_upsert_unique (db : DB) (hwf : WF db)
    (aid question : String) (recs : List (String × String))
    (rlast : String × String) (hlast : recs.getLast? = some rlast) :
    WF (recordMany db aid question recs) ∧
    ((recordMany db aid question recs).docs.filter
        (fun d => d.question = question)).length = 1 ∧
    ∀ d ∈ (recordMany db aid question recs).docs, d.question = question →
      lookupAgent d.agents aid = some (mkAgentEntry rlast) := by
  induction recs generalizing db hwf with
  | nil => simp at hlast
  | cons r rs ih =>
    cases rs with
    | nil =>
      have hr : r = rlast := by simpa using hlast
      subst hr
      obtain ⟨h1, h2⟩ := update_memory2_present db hwf aid question r.1 r.2
      exact ⟨WF_update_memory2 db hwf aid question r.1 r.2, h1, h2⟩
    | cons r2 rs2 =>
      have hlast2 : (r2 :: rs2).getLast? = some rlast := by
        rw [List.getLast?_cons_cons] at hlast
        exact hlast
      exact ih (update_memory2 db aid question r.1 r.2)
        (WF_update_memory2 db hwf aid question r.1 r.2) hlast2

/-- Claim C3 witness: recording an incorrect then a correct answer for the
same question and agent, starting from an empty collection, leaves one
well-formed document carrying the latest entry. -/
theorem durable_upsert_unique_witness :
    WF (recordMany dbInit "agent_0" "Q" [("a", "b"), ("b", "b")]) ∧
    ((recordMany dbInit "agent_0" "Q" [("a", "b"), ("b", "b")]).docs.filter
        (fun d => d.question = "Q")).length = 1 ∧
    ∀ d ∈ (recordMany dbInit "agent_0" "Q" [("a", "b"), ("b", "b")]).docs,
      d.question = "Q" →
      lookupAgent d.agents "agent_0" = some (mkAgentEntry ("b", "b")) :=
  durable_upsert_unique dbInit
    ⟨by simp [dbInit], by simp [dbInit], by simp [dbInit]⟩
    "agent_0" "Q" [("a", "b"), ("b", "b")] ("b", "b") (by simp)

/-- Claim C4: when the question's document already exists, the durable
`update_memory` leaves every document's question text and `_id` in place,
leaves every other agent identity's sub-field in every document unchanged,
leaves every document whose question differs byte-for-byte unchanged at
its position, and sets the caller's sub-field in the matched document. -/
theorem durable_update_frame (db : DB) (hwf : WF db) (aid q a c : String)
    (doc : QuestionDoc) (hfind : findOneQuestion db q = some doc) :
    ((update_memory2 db aid q a c).docs.map (fun d => d.question) =
        db.docs.map (fun d => d.question)) ∧
    ((update_memory2 db aid q a c).docs.map (fun d => d.qid) =
        db.docs.map (fun d => d.qid)) ∧
    (∀ b, b ≠ aid →
      (update_memory2 db aid q a c).docs.map
          (fun d => lookupAgent d.agents b) =
        db.docs.map (fun d => lookupAgent d.agents b)) ∧
    (∀ i : Nat, ∀ d0, db.docs.get? i = some d0 → d0.question ≠ q →
      (update_memory2 db aid q a c).docs.get? i = some d0) ∧
    ∃ d ∈ (update_memory2 db aid q a c).docs, d.question = q ∧
      lookupAgent d.agents aid = some ⟨a, c, resultStr a c⟩ := by
  have hupd : update_memory2 db aid q a c =
      updateAgentField db doc.qid aid ⟨a, c, resultStr a c⟩ := by
    unfold update_memory2
    rw [hfind]
  obtain ⟨hdmem, hdq⟩ := findOneQuestion_mem db q doc hfind
  rw [hupd]
  refine ⟨updateAgentField_map_question db doc.qid aid _,
    updateAgentField_map_qid db doc.qid aid _, ?_, ?_, ?_⟩
  · intro b hb
    rw [updateAgentField_docs, List.map_map]
    exact List.map_congr_left
      (fun d _ => setDocAgent_lookup_ne doc.qid aid b _ d hb)
  · intro i d0 hget hne
    rw [updateAgentField_docs, List.get?_map, hget]
    have hmem0 : d0 ∈ db.docs := List.get?_mem hget
    have hne0 : d0.qid ≠ doc.qid := by
      intro hc
      exact hne (by
        rw [List.inj_on_of_nodup_map (qid_nodup_of_wf db hwf) hmem0 hdmem hc]
        exact hdq)
    show some (setDocAgent doc.qid aid ⟨a, c, resultStr a c⟩ d0) = some d0
    rw [setDocAgent_eq_of_ne doc.qid aid _ d0 hne0]
  · refine ⟨setDocAgent doc.qid aid ⟨a, c, resultStr a c⟩ doc, ?_, ?_, ?_⟩
    · rw [updateAgentField_docs]
      exact List.mem_map_of_mem _ hdmem
    · rw [setDocAgent_question]
      exact hdq
    · rw [setDocAgent_agents_of_eq _ _ _ _ rfl]
      exact lookupAgent_setAgentField_self doc.agents aid _

/-- Claim C4 witness: agent_0 re-records its answer on a one-document
collection also holding agent_1's sub-field; everything but
`agents.agent_0` of that document is untouched. -/
theorem durable_update_frame_witness :
    ((update_memory2 dbQ "agent_0" "Q" "b" "b").docs.map
        (fun d => d.question) = dbQ.docs.map (fun d => d.question)) ∧
    ((update_memory2 dbQ "agent_0" "Q" "b" "b").docs.map (fun d => d.qid) =
        dbQ.docs.map (fun d => d.qid)) ∧
    (∀ b, b ≠ "agent_0" →
      (update_memory2 dbQ "agent_0" "Q" "b" "b").docs.map
          (fun d => lookupAgent d.agents b) =
        dbQ.docs.map (fun d => lookupAgent d.agents b)) ∧
    (∀ i : Nat, ∀ d0, dbQ.docs.get? i = some d0 → d0.question ≠ "Q" →
      (update_memory2 dbQ "agent_0" "Q" "b" "b").docs.get? i = some d0) ∧
    ∃ d ∈ (update_memory2 dbQ "agent_0" "Q" "b" "b").docs,
      d.question = "Q" ∧
      lookupAgent d.agents "agent_0" =
        some ⟨"b", "b", resultStr "b" "b"⟩ :=
  durable_update_frame dbQ ⟨by simp [dbQ], by simp [dbQ], by simp [dbQ]⟩
    "agent_0" "Q" "b" "b"
    ⟨0, "Q", [("agent_0", ⟨"a", "b", "incorrect"⟩),
      ("agent_1", ⟨"b", "b", "correct"⟩)]⟩ (by rfl)

/-- Claim C6 counterexample: in the in-process variant the stored memory
sequence is ordered oldest first, not most recent first — after recording
q1 then q2, the entry for q1 (the older one) comes first and the two
entries differ. -/
theorem fetch_recent_order_counterexample :
    (update_memory (update_memory agentInit "q1" "a" "b") "q2" "a" "a").memory
      = [memoryEntry "q1" "a" "b", memoryEntry "q2" "a" "a"] ∧
    memoryEntry "q1" "a" "b" ≠ memoryEntry "q2" "a" "a" := by
  constructor
  · rfl
  · decide

/-- Claim C6 amended: in the durable variant, `get_memory` returns the
rendered records of the 5 most recently inserted question documents in
which the agent's sub-field exists, in insertion order descending (most
recent first); in the in-process variant the stored records are kept in
insertion order, the most recent record coming last. -/
theorem fetch_recent_order_amended (db : DB) (hwf : WF db) (aid : String)
    (st : AgentState) (q a c : String) :
    get_memory db aid =
      ((agentDocs db aid).reverse.take 5).filterMap (memoryEntryOfDoc aid) ∧
    (update_memory st q a c).memory.getLast? = some (memoryEntry q a c) := by
  constructor
  · unfold get_memory
    rw [sortDesc_eq_reverse]
    exact List.Pairwise.sublist (List.filter_sublist db.docs)
      (List.pairwise_map.mp hwf.2.1)
  · exact update_memory_getLast st q a c

/-- Claim C6 witness: the amended ordering statement at a concrete
one-document collection and a concrete in-process record. -/
theorem fetch_recent_order_amended_witness :
    get_memory dbQ "agent_0" =
      ((agentDocs dbQ "agent_0").reverse.take 5).filterMap
        (memoryEntryOfDoc "agent_0") ∧
    (update_memory agentInit "q" "a" "b").memory.getLast? =
      some (memoryEntry "q" "a" "b") :=
  fetch_recent_order_amended dbQ
    ⟨by simp [dbQ], by simp [dbQ], by simp [dbQ]⟩ "agent_0" agentInit
    "q" "a" "b"

end LLMCore
